import Mathlib

/-!
Verification of the interaction (permutation) argument engine.

This file gives a shallow embedding of the interaction-argument engine found in
machine/src/chip.rs: the interaction data model, the occurrence indexer, the
batched field-inversion primitive, the permutation-trace generator and the
constraint evaluator, together with theorems settling the specified properties.

Modelling conventions, fixed once for the whole file:

* The base field is an arbitrary type F with no structure of its own (main
  trace cells are only ever read through column projections), and the
  extension field is an arbitrary K with a Field instance.  The embedding
  function from_base of the source is an explicit parameter fb : F -> K.
* Modelled from the spec: a VirtualPairCol (symbolic column projection) is,
  per section 3 of the spec, a pure function from one trace row to a
  base-field element; we model it as List F -> F.  Its apply method with an
  empty preprocessed slice is plain function application.
* Modelled from the spec: the field backend is an external collaborator; per
  sections 4.2 and 7 of the spec, inverting the additive identity is
  undefined or fatal, so inversion is modelled as a fallible operation (none
  at zero, some of the Mathlib inverse elsewhere).
* Every Rust panic (vector index out of range, Option unwrap on None, map key
  lookup failure) is modelled by returning none / an error value, and fallible
  functions return Option or Except accordingly.
* A RowMajorMatrix is modelled as its list of rows.
-/

set_option maxRecDepth 10000

namespace Valida

/-- BusArgument from the source: a tagged index, Local or Global. -/
inductive BusArgument : Type where
  | Local : Nat → BusArgument
  | Global : Nat → BusArgument
deriving DecidableEq

/-- InteractionType from the source. -/
inductive InteractionType : Type where
  | LocalSend | LocalReceive | GlobalSend | GlobalReceive
deriving DecidableEq

/-- Interaction from the source: a list of column projections, a count
(multiplicity) projection, and a bus argument.  Projections are modelled from
the spec as pure functions on a row. -/
structure Interaction (F : Type) where
  fields : List (List F → F)
  count : List F → F
  argument_index : BusArgument

/-- Translation of Interaction::is_local. -/
def Interaction.is_local {F : Type} (i : Interaction F) : Bool :=
  match i.argument_index with
  | BusArgument.Local _ => true
  | BusArgument.Global _ => false

/-- Translation of the method Interaction::argument_index, which projects the
inner index out of the BusArgument (named with a Nat suffix because the field
of the structure already carries the source name). -/
def Interaction.argument_index_nat {F : Type} (i : Interaction F) : Nat :=
  match i.argument_index with
  | BusArgument.Local n => n
  | BusArgument.Global n => n

/-- A chip, as the Chip trait presents it to this subsystem: the four
interaction lists; the global ones may depend on the machine (type
parameter M). -/
structure Chip (M F : Type) where
  local_sends : List (Interaction F)
  local_receives : List (Interaction F)
  global_sends : M → List (Interaction F)
  global_receives : M → List (Interaction F)

/-- Translation of Chip::all_interactions: starting from an empty vector,
extend with the tagged local sends, local receives, global sends and global
receives, in that order. -/
def all_interactions {M F : Type} (c : Chip M F) (machine : M) :
    List (Interaction F × InteractionType) :=
  let interactions : List (Interaction F × InteractionType) := []
  let interactions := interactions ++
    c.local_sends.map (fun i => (i, InteractionType.LocalSend))
  let interactions := interactions ++
    c.local_receives.map (fun i => (i, InteractionType.LocalReceive))
  let interactions := interactions ++
    (c.global_sends machine).map (fun i => (i, InteractionType.GlobalSend))
  let interactions := interactions ++
    (c.global_receives machine).map (fun i => (i, InteractionType.GlobalReceive))
  interactions

/-- The positions (in order) of the occurrences in xs whose interaction has
the bus argument arg, starting the position count at start.  This is the list
the BTreeMap of Chip::interaction_map stores under the key arg: the map is
built by pushing each occurrence index n onto the entry of its argument, in
enumeration order. -/
def positions_from {F : Type} (arg : BusArgument)
    (xs : List (Interaction F × InteractionType)) (start : Nat) : List Nat :=
  match xs with
  | [] => []
  | x :: rest =>
    if x.1.argument_index = arg then start :: positions_from arg rest (start + 1)
    else positions_from arg rest (start + 1)

/-- Lookup of one key in the interaction map built from the occurrence list:
map lookup of arg returns the ordered position list for that bus argument. -/
def map_lookup {F : Type} (xs : List (Interaction F × InteractionType))
    (arg : BusArgument) : List Nat :=
  positions_from arg xs 0

/-- Translation of Chip::interaction_map, read through lookups: the entry of
the BTreeMap at a given bus argument. -/
def interaction_map {M F : Type} (c : Chip M F) (machine : M)
    (arg : BusArgument) : List Nat :=
  map_lookup (all_interactions c machine) arg

/-- Translation of batch_invert.  Forward pass: res gets the prefix products
and prod the total product.  The single inversion of prod is fatal when prod
is zero (equivalently, when some input is zero).  Backward pass: the source
iterates values dot iter dot cloned dot rev dot enumerate dot rev, which
pairs the j-th element of values (in forward order) with the index k - 1 - j;
each step multiplies the cell at that index by inv and then multiplies inv by
the element. -/
def batch_invert {K : Type} [Field K] [DecidableEq K] (values : List K) :
    Option (List K) :=
  let k := values.length
  let fwd := values.foldl
    (fun (st : List K × K × Nat) v =>
      (st.1.set st.2.2 st.2.1, st.2.1 * v, st.2.2 + 1))
    (List.replicate k (0 : K), (1 : K), 0)
  let res := fwd.1
  let prod := fwd.2.1
  if prod = 0 then none
  else
    let bwd := values.foldl
      (fun (st : List K × K × Nat) v =>
        (st.1.set (k - 1 - st.2.2) (st.1.getD (k - 1 - st.2.2) 0 * st.2.1),
          st.2.1 * v, st.2.2 + 1))
      (res, prod⁻¹, 0)
    some bwd.1

/-- Translation of generate_rlc_elements.  Both alpha tables take powers of
the challenge starting at exponent one; both take counts are the maximum
argument index of the local sends (the source uses the local sends for the
global table as well), and the Iterator::max unwrap is fatal on a chip with
no local sends. -/
def generate_rlc_elements {M F K : Type} [Field K] (c : Chip M F)
    (random_elements : List K) : Option (List K × List K) :=
  match random_elements.get? 0 with
  | none => none
  | some r0 =>
    match (c.local_sends.map (fun i => i.argument_index_nat)).max? with
    | none => none
    | some mx =>
      let alphas_local := (List.range mx).map (fun i => r0 ^ (i + 1))
      match random_elements.get? 1 with
      | none => none
      | some r1 =>
        match (c.local_sends.map (fun i => i.argument_index_nat)).max? with
        | none => none
        | some mxg =>
          let alphas_global := (List.range mxg).map (fun i => r1 ^ (i + 1))
          some (alphas_local, alphas_global)

/-- The alpha selection made inside both the trace generator row loop and the
evaluator loop: a local occurrence indexes alphas_local at its argument
index, a global one indexes alphas_global; the vector indexing is fatal when
out of range. -/
def alpha_for {F K : Type} (alphas_local alphas_global : List K)
    (i : Interaction F) : Option K :=
  if i.is_local then alphas_local.get? i.argument_index_nat
  else alphas_global.get? i.argument_index_nat

/-- Translation of reduce_row: the random linear combination of the field
projections of one interaction on one row, weighted by the powers of beta
starting at exponent zero, with alpha added after the sum. -/
def reduce_row {F K : Type} [Field K] (fb : F → K) (row : List F)
    (fields : List (List F → F)) (alpha : K) (beta : K) : K :=
  (List.zipWith (fun f b => b * fb (f row)) fields
    ((List.range fields.length).map (fun j => beta ^ j))).sum + alpha

/-- One row of the reciprocal-input buffer, from the row loop of
generate_permutation_trace: a vector of perm_width zeros whose first
all_interactions-many cells are overwritten with the reduced rows (the alpha
selection can be fatal), and whose final cell is left at zero. -/
def build_perm_row {F K : Type} [Field K] (fb : F → K)
    (all_ints : List (Interaction F × InteractionType))
    (alphas_local alphas_global : List K) (beta : K) (main_row : List F) :
    Option (List K) := do
  let body ← all_ints.mapM (fun x => do
    let alpha ← alpha_for alphas_local alphas_global x.1
    pure (reduce_row fb main_row x.1.fields alpha beta))
  pure (body ++ [(0 : K)])

/-- Rows of a row-major matrix of the given width, from its flat value
buffer (RowMajorMatrix new followed by rows); fuel-based so that it reduces
definitionally. -/
def chunks_aux {K : Type} (w : Nat) (fuel : Nat) (l : List K) : List (List K) :=
  match fuel, l with
  | 0, _ => []
  | _, [] => []
  | fuel + 1, l => l.take w :: chunks_aux w fuel (l.drop w)

/-- Rows of a row-major matrix of width w with flat buffer l. -/
def chunks {K : Type} (w : Nat) (l : List K) : List (List K) :=
  chunks_aux w l.length l

/-- Inner loop of the running-sum phase of generate_permutation_trace, for
one row: iterate the occurrence list with its enumeration index m, read the
multiplicity through the count projection, look up col_idx as the m-th entry
of the interaction-map position list of the occurrence bus argument (fatal
when absent), read the reciprocal at col_idx, and add or subtract the lifted
multiplicity times that reciprocal according to the occurrence type. -/
def phi_step_aux {F K : Type} [Field K] (fb : F → K)
    (all_ints ints : List (Interaction F × InteractionType)) (m : Nat)
    (main_row : List F) (perm_row : List K) (cur : K) : Option K :=
  match ints with
  | [] => some cur
  | (i, ty) :: rest =>
    let mult := i.count main_row
    match (map_lookup all_ints i.argument_index).get? m with
    | none => none
    | some col =>
      match perm_row.get? col with
      | none => none
      | some recip =>
        let cur' := match ty with
          | InteractionType.LocalSend | InteractionType.GlobalSend =>
              cur + fb mult * recip
          | InteractionType.LocalReceive | InteractionType.GlobalReceive =>
              cur - fb mult * recip
        phi_step_aux fb all_ints rest (m + 1) main_row perm_row cur'

/-- One full row update of the running sum: phi of the next row from phi of
the current row. -/
def phi_step {F K : Type} [Field K] (fb : F → K)
    (all_ints : List (Interaction F × InteractionType))
    (main_row : List F) (perm_row : List K) (cur : K) : Option K :=
  phi_step_aux fb all_ints all_ints 0 main_row perm_row cur

/-- Statement-side formula for the running-sum row update, following the
words of the spec: summed over the occurrences enumerated from position m,
each occurrence contributes its sign (plus for sends, minus for receives)
times the lifted multiplicity times the reciprocal read from its own column,
namely its position in the flattened occurrence list. -/
def phi_contrib_from {F K : Type} [Field K] (fb : F → K) (main_row : List F)
    (perm_row : List K) : Nat → List (Interaction F × InteractionType) → K
  | _, [] => 0
  | m, (i, ty) :: rest =>
    (match ty with
      | InteractionType.LocalSend | InteractionType.GlobalSend =>
          fb (i.count main_row) * perm_row.getD m 0
      | InteractionType.LocalReceive | InteractionType.GlobalReceive =>
          -(fb (i.count main_row) * perm_row.getD m 0))
    + phi_contrib_from fb main_row perm_row (m + 1) rest

/-- The tail of the phi vector: the values phi one through phi of the zipped
height, accumulated left to right over the zipped main and reciprocal rows. -/
def running_phis_aux {F K : Type} [Field K] (fb : F → K)
    (all_ints : List (Interaction F × InteractionType))
    (rows : List (List F × List K)) (cur : K) : Option (List K) :=
  match rows with
  | [] => some []
  | (mr, pr) :: rest => do
    let nxt ← phi_step fb all_ints mr pr cur
    let tail ← running_phis_aux fb all_ints rest nxt
    pure (nxt :: tail)

/-- The phi vector of generate_permutation_trace: phi at index zero is the
additive identity, and phi at index n plus one is obtained from phi at index
n by the row update on the n-th zipped pair of main and reciprocal rows. -/
def running_phis {F K : Type} [Field K] (fb : F → K)
    (all_ints : List (Interaction F × InteractionType))
    (main_rows : List (List F)) (perm_rows : List (List K)) :
    Option (List K) := do
  let tail ← running_phis_aux fb all_ints (main_rows.zip perm_rows) 0
  pure ((0 : K) :: tail)

/-- Final write-back loop of generate_permutation_trace: for each row index
n, overwrite the last cell of row n (the last-mut unwrap is fatal on an empty
row) with phi at index n (fatal when out of range). -/
def write_phis_from {K : Type} (n : Nat) (rows : List (List K))
    (phis : List K) : Option (List (List K)) :=
  match rows with
  | [] => some []
  | r :: rest =>
    if r.length = 0 then none
    else
      match phis.get? n with
      | none => none
      | some v => do
        let tail ← write_phis_from (n + 1) rest phis
        pure (r.set (r.length - 1) v :: tail)

/-- Translation of generate_permutation_trace: derive the occurrence list and
the challenge tables, take the third challenge for the betas, build the flat
reciprocal-input buffer row by row (the final cell of each row staying zero),
batch invert the whole buffer, re-chunk it to width one more than the number
of occurrences, accumulate the running sum, and write it into the last
column. -/
def generate_permutation_trace {M F K : Type} [Field K] [DecidableEq K]
    (fb : F → K) (machine : M) (chip : Chip M F) (main : List (List F))
    (random_elements : List K) : Option (List (List K)) := do
  let all_ints := all_interactions chip machine
  let (alphas_local, alphas_global) ← generate_rlc_elements chip random_elements
  let beta ← random_elements.get? 2
  let perm_width := all_ints.length + 1
  let perm_rows ← main.mapM
    (fun main_row => build_perm_row fb all_ints alphas_local alphas_global beta main_row)
  let inverted ← batch_invert perm_rows.flatten
  let perm := chunks perm_width inverted
  let phis ← running_phis fb all_ints main perm
  write_phis_from 0 perm phis

/-- Which builder assertion a constraint came from: the plain assert inside
the occurrence loop, or one of the selector-guarded running-sum constraints. -/
inductive Selector : Type where
  | always | transition | firstRow | lastRow
deriving DecidableEq

/-- A constraint emitted by the evaluator: the selector under which it is
asserted, and the value asserted to be zero (an equality assertion of a and b
is recorded as a minus b). -/
abbrev Constraint (K : Type) : Type := Selector × K

/-- The kind of fatality an evaluator run can end in: a vector or slice index
out of range, or an Option unwrap on None. -/
inductive PanicKind : Type where
  | indexOutOfBounds | unwrapNone
deriving DecidableEq

/-- The two-row window and channels the constraint builder supplies to
eval_permutation_constraints: the permutation randomness, row zero of the
main trace window, rows zero and one of the permutation trace window, and
the optional public input.  Modelled from the spec: the PublicInput
collaborator is represented by the base-field value its cumulative_sum
method returns, and the default public_input implementation of
ValidaAirBuilder returns None. -/
structure Builder (F K : Type) where
  rand_elems : List K
  main_local : List F
  perm_local : List K
  perm_next : List K
  public_input : Option F

/-- The occurrence loop of eval_permutation_constraints: for each occurrence
at enumeration index m, look up col_idx in the interaction map (fatal when
the position list is too short), select alpha (fatal when the table is too
short), recompute the random linear combination on the current main row,
assert it equal to the permutation cell at col_idx, and accumulate the
signed multiplicity-weighted permutation cell into the transition right-hand
side.  Errors carry the constraints emitted before the fatality. -/
def eval_loop {F K : Type} [Field K] (fb : F → K)
    (all_ints ints : List (Interaction F × InteractionType)) (m : Nat)
    (main_local : List F) (perm_local : List K)
    (alphas_local alphas_global : List K) (beta : K)
    (emitted : List (Constraint K)) (rhs : K) :
    Except (PanicKind × List (Constraint K)) (List (Constraint K) × K) :=
  match ints with
  | [] => Except.ok (emitted, rhs)
  | (i, ty) :: rest =>
    match (map_lookup all_ints i.argument_index).get? m with
    | none => Except.error (PanicKind.indexOutOfBounds, emitted)
    | some col =>
      match alpha_for alphas_local alphas_global i with
      | none => Except.error (PanicKind.indexOutOfBounds, emitted)
      | some alpha =>
        let rlc := reduce_row fb main_local i.fields alpha beta
        match perm_local.get? col with
        | none => Except.error (PanicKind.indexOutOfBounds, emitted)
        | some perm_val =>
          let emitted := emitted ++ [(Selector.always, rlc - perm_val)]
          let mult := i.count main_local
          let rhs := match ty with
            | InteractionType.LocalSend | InteractionType.GlobalSend =>
                rhs + fb mult * perm_val
            | InteractionType.LocalReceive | InteractionType.GlobalReceive =>
                rhs - fb mult * perm_val
          eval_loop fb all_ints rest (m + 1) main_local perm_local
            alphas_local alphas_global beta emitted rhs

/-- The running-sum constraint block closing eval_permutation_constraints: a
transition constraint equating phi of the next row minus phi of the current
row with the accumulated right-hand side, a first-row constraint asserting
phi of the current row to be zero, and a last-row constraint asserting the
permutation cell at column zero equal to the lifted public cumulative sum
(the indexing of that cell is fatal on an empty row). -/
def boundary_constraints {F K : Type} [Field K] (fb : F → K)
    (lhs rhs phi_local : K) (perm_local : List K) (cumulative_sum : F) :
    Option (List (Constraint K)) :=
  match perm_local.get? 0 with
  | none => none
  | some p0 =>
    some [(Selector.transition, lhs - rhs), (Selector.firstRow, phi_local),
      (Selector.lastRow, p0 - fb cumulative_sum)]

/-- Translation of eval_permutation_constraints over a concrete builder
window, in source order: read the randomness and the window rows, read phi of
the current and next rows from the last permutation column, unwrap the public
input (fatal on None, before any constraint is emitted), re-derive the
occurrence list and challenge tables, take the third challenge, run the
occurrence loop, and emit the running-sum constraint block. -/
def eval_permutation_constraints {M F K : Type} [Field K] (fb : F → K)
    (chip : Chip M F) (machine : M) (b : Builder F K) :
    Except (PanicKind × List (Constraint K)) (List (Constraint K)) :=
  match b.perm_local.get? (b.perm_local.length - 1) with
  | none => Except.error (PanicKind.indexOutOfBounds, [])
  | some phi_local =>
    match b.perm_next.get? (b.perm_local.length - 1) with
    | none => Except.error (PanicKind.indexOutOfBounds, [])
    | some phi_next =>
      match b.public_input with
      | none => Except.error (PanicKind.unwrapNone, [])
      | some cumulative_sum =>
        let all_ints := all_interactions chip machine
        match generate_rlc_elements chip b.rand_elems with
        | none => Except.error (PanicKind.unwrapNone, [])
        | some (alphas_local, alphas_global) =>
          match b.rand_elems.get? 2 with
          | none => Except.error (PanicKind.indexOutOfBounds, [])
          | some beta =>
            let lhs := phi_next - phi_local
            match eval_loop fb all_ints all_ints 0 b.main_local b.perm_local
                alphas_local alphas_global beta [] 0 with
            | Except.error e => Except.error e
            | Except.ok (emitted, rhs) =>
              match boundary_constraints fb lhs rhs phi_local b.perm_local
                  cumulative_sum with
              | none => Except.error (PanicKind.indexOutOfBounds, emitted)
              | some cs => Except.ok (emitted ++ cs)

end Valida

deriving instance DecidableEq for Except

namespace Valida

instance : Fact (Nat.Prime 101) := ⟨by norm_num⟩

/-- C1.  The claim says batch_invert maps every sequence of nonzero field
elements to the sequence of their inverses.  On the concrete nonzero input
(2, 3) over the field of integers mod 101 the code returns (34, 34), the
inverse of 3 twice: the backward sweep pairs the descending write index with
the elements in ascending order, so position 0 does not receive the inverse
of 2 (which is 51); indeed 34 times 2 is not the multiplicative identity. -/
theorem c1_batch_invert_not_inverses :
    batch_invert ((2 : ZMod 101) :: 3 :: []) = some (34 :: 34 :: []) ∧
    ¬ ((34 : ZMod 101) * 2 = 1) := by
  constructor
  · have h6 : ((1 : ZMod 101) * 2 * 3)⁻¹ = 17 := by
      apply inv_eq_of_mul_eq_one_right
      decide
    unfold batch_invert
    simp only [List.foldl, List.length, List.replicate, List.set, List.getD]
    rw [if_neg (by decide)]
    rw [h6]
    decide
  · decide

/-- C3.  The concrete scenario of the spec: field of integers mod 101,
challenges 2, 3, 5, one local send with field list reading column zero,
count one, bus argument Local 1, and the two-row main trace 7, 11.  The
claim says generation completes with the reciprocals of 37 and 57; in fact
generate_permutation_trace is fatal on this input: the local alpha table is
the single power r0 to the one, and the occurrence indexes it at position 1,
out of range. -/
theorem c3_scenario_aborts :
    generate_permutation_trace (fun x => x) ()
      (⟨[⟨[fun r => r.getD 0 0], fun _ => 1, BusArgument.Local 1⟩], [],
        fun _ => [], fun _ => []⟩ : Chip Unit (ZMod 101))
      [[7], [11]] [2, 3, 5] = none := by
  decide

/-- C4.  The claim says the local alpha table covers the local argument-index
space, the global table is derived from the global sends and receives, and
every occurrence finds its alpha at its argument index.  For the chip with
one local send under Local 1 and one global send under Global 3, with
challenges 2, 3, 5, the code sizes both tables by the maximum local send
index (one power each): the global table is the single power 3 of the first
global challenge, ignoring the global index space, and neither the local
occurrence (index 1) nor the global occurrence (index 3) finds an alpha in
the table of its scope. -/
theorem c4_rlc_tables_wrong_scope :
    generate_rlc_elements
      (⟨[⟨[], fun _ => 1, BusArgument.Local 1⟩], [],
        fun _ => [⟨[], fun _ => 1, BusArgument.Global 3⟩], fun _ => []⟩ :
        Chip Unit (ZMod 101))
      ([2, 3, 5] : List (ZMod 101)) = some ([2], [3]) ∧
    alpha_for ([2] : List (ZMod 101)) [3]
      (⟨[], fun _ => 1, BusArgument.Local 1⟩ : Interaction (ZMod 101)) = none ∧
    alpha_for ([2] : List (ZMod 101)) [3]
      (⟨[], fun _ => 1, BusArgument.Global 3⟩ : Interaction (ZMod 101)) = none := by
  refine ⟨by decide, by decide, by decide⟩

/-- C2.  The claim says every auxiliary trace the generator completes
satisfies the per-occurrence reciprocal-consistency assertion of the
evaluator, the stored entry being the batch inversion of the recomputed
random linear combination.  Over the field of integers mod 101, with
challenges 2, 3, 5 and main row 7, the first occurrence (field list reading
column zero, count one, Local 0) has combination 2 + 7 = 9, whose reciprocal
is 45.  Feeding the evaluator an auxiliary row that stores exactly that
reciprocal, the emitted reciprocal constraint has residue 9 - 45 = 65, which
is nonzero: the assertion equates the combination with the stored entry
itself, not with its product against the entry, so a trace storing
reciprocals violates it (and the run then aborts at the second occurrence,
whose per-argument position list has no entry at the flattened index). -/
theorem c2_eval_rejects_stored_reciprocal :
    eval_permutation_constraints (fun x => x)
      (⟨[⟨[fun r => r.getD 0 0], fun _ => 1, BusArgument.Local 0⟩,
         ⟨[], fun _ => 0, BusArgument.Local 2⟩], [],
        fun _ => [], fun _ => []⟩ : Chip Unit (ZMod 101))
      () ⟨[2, 3, 5], [7], [45, 0, 0], [0, 0, 0], some 0⟩ =
      Except.error (PanicKind.indexOutOfBounds, [(Selector.always, 65)]) ∧
    (9 : ZMod 101) * 45 = 1 ∧ (65 : ZMod 101) ≠ 0 := by
  refine ⟨by decide, by decide, by decide⟩

/-- C7.  The claim says the evaluator pins the running-sum column (the last
auxiliary column) to the public cumulative sum on the last row.  The
emitted last-row constraint instead references the auxiliary cell at column
zero: on the window with current permutation row 5, 9 and cumulative sum 5
the last-row residue is 5 - 5 = 0 even though the running-sum column holds
9 and 9 - 5 is nonzero.  Moreover a full evaluator run on a chip with one
interaction aborts inside the occurrence loop (alpha table lookup out of
range) without emitting any boundary constraint at all. -/
theorem c7_last_row_pins_column_zero :
    boundary_constraints (fun x => x) 0 0 (9 : ZMod 101) [5, 9] 5 =
      some [(Selector.transition, 0), (Selector.firstRow, 9),
        (Selector.lastRow, 0)] ∧
    (9 : ZMod 101) - 5 ≠ 0 ∧
    eval_permutation_constraints (fun x => x)
      (⟨[⟨[fun r => r.getD 0 0], fun _ => 1, BusArgument.Local 1⟩], [],
        fun _ => [], fun _ => []⟩ : Chip Unit (ZMod 101))
      () ⟨[2, 3, 5], [7], [5, 9], [0, 0], some 5⟩ =
      Except.error (PanicKind.indexOutOfBounds, []) := by
  refine ⟨by decide, by decide, by decide⟩

/-- C6.  The claim says a chip declaring no interactions yields a width-one
all-zero auxiliary trace of the same height as the main trace.  In fact
generate_permutation_trace is fatal for such a chip: generate_rlc_elements
unwraps the maximum of the empty local-send index list. -/
theorem c6_empty_chip_aborts :
    generate_permutation_trace (fun x => x) ()
      (⟨[], [], fun _ => [], fun _ => []⟩ : Chip Unit (ZMod 101))
      [[7]] [2, 3, 5] = none := by
  decide

/-- C8.  For every chip and machine, all_interactions is exactly the
concatenation of the local sends, local receives, global sends and global
receives, in that order, tagged with the matching interaction type; as a
Lean function of the chip and the machine it is pure and deterministic. -/
theorem c8_all_interactions_order {M F : Type} (c : Chip M F) (machine : M) :
    all_interactions c machine =
      c.local_sends.map (fun i => (i, InteractionType.LocalSend)) ++
      c.local_receives.map (fun i => (i, InteractionType.LocalReceive)) ++
      (c.global_sends machine).map (fun i => (i, InteractionType.GlobalSend)) ++
      (c.global_receives machine).map
        (fun i => (i, InteractionType.GlobalReceive)) := by
  simp [all_interactions, List.append_assoc]

/-- C9.  For every chip, machine and builder whose permutation window is
well formed (a nonempty current permutation row, and a next row of the same
width), if the builder supplies no public input then
eval_permutation_constraints ends in the Option unwrap fatality with no
constraint emitted yet, whatever interactions the chip declares. -/
theorem c9_public_input_unwrap {M F K : Type} [Field K] (fb : F → K)
    (chip : Chip M F) (machine : M) (b : Builder F K)
    (h1 : b.perm_local ≠ []) (h2 : b.perm_next.length = b.perm_local.length)
    (h3 : b.public_input = none) :
    eval_permutation_constraints fb chip machine b =
      Except.error (PanicKind.unwrapNone, []) := by
  have hpos : 0 < b.perm_local.length := List.length_pos.mpr h1
  have hl : b.perm_local.length - 1 < b.perm_local.length := by omega
  have hl2 : b.perm_local.length - 1 < b.perm_next.length := by omega
  unfold eval_permutation_constraints
  rw [List.get?_eq_get hl, List.get?_eq_get hl2, h3]

/-- Witness for C9 at a concrete chip and builder window over the field of
integers mod 101. -/
theorem c9_public_input_unwrap_witness :
    eval_permutation_constraints (fun x => x)
      (⟨[⟨[], fun _ => 1, BusArgument.Local 0⟩], [],
        fun _ => [], fun _ => []⟩ : Chip Unit (ZMod 101))
      () ⟨[2, 3, 5], [7], [0, 0], [0, 0], none⟩ =
      Except.error (PanicKind.unwrapNone, []) :=
  c9_public_input_unwrap (fun x => x) _ () _ (by decide) (by decide) rfl

/-- Helper: when every occurrence of the list carries the bus argument a,
the position list collected for a is the contiguous range starting at the
given offset. -/
theorem positions_from_uniform {F : Type} (a : BusArgument)
    (xs : List (Interaction F × InteractionType)) (s : Nat)
    (h : ∀ x ∈ xs, x.1.argument_index = a) :
    positions_from a xs s = List.range' s xs.length := by
  induction xs generalizing s with
  | nil => rfl
  | cons x rest ih =>
    have hx : x.1.argument_index = a := h x (List.mem_cons_self x rest)
    simp only [positions_from, if_pos hx, List.length_cons, List.range'_succ]
    exact congrArg (s :: ·) (ih (s + 1) (fun y hy => h y (List.mem_cons_of_mem x hy)))

/-- Helper: indexing a contiguous range. -/
theorem range'_get?_eq : ∀ (n s i : Nat), i < n →
    (List.range' s n).get? i = some (s + i)
  | 0, _, _, h => absurd h (Nat.not_lt_zero _)
  | n + 1, s, 0, _ => by simp [List.range'_succ]
  | n + 1, s, i + 1, h => by
    rw [List.range'_succ]
    show (List.range' (s + 1) n).get? i = some (s + (i + 1))
    rw [range'_get?_eq n (s + 1) i (by omega)]
    congr 1
    omega

/-- Helper: the inner running-sum loop on a uniform-argument occurrence list
reduces to the spec-side column-m accumulation. -/
theorem phi_step_aux_uniform {F K : Type} [Field K] (fb : F → K)
    (all_ints : List (Interaction F × InteractionType)) (a : BusArgument)
    (main_row : List F) (perm_row : List K)
    (hmap : map_lookup all_ints a = List.range' 0 all_ints.length)
    (hplen : all_ints.length ≤ perm_row.length) :
    ∀ (ints : List (Interaction F × InteractionType)) (m : Nat) (cur : K),
      (∀ x ∈ ints, x.1.argument_index = a) →
      m + ints.length ≤ all_ints.length →
      phi_step_aux fb all_ints ints m main_row perm_row cur =
        some (cur + phi_contrib_from fb main_row perm_row m ints) := by
  intro ints
  induction ints with
  | nil =>
    intro m cur _ _
    simp [phi_step_aux, phi_contrib_from]
  | cons x rest ih =>
    intro m cur hall hm
    obtain ⟨i, ty⟩ := x
    have hx : i.argument_index = a := hall (i, ty) (List.mem_cons_self _ _)
    have hmlt : m < all_ints.length := by
      simp only [List.length_cons] at hm
      omega
    have hcol : (map_lookup all_ints i.argument_index).get? m = some m := by
      rw [hx, hmap, range'_get?_eq all_ints.length 0 m hmlt, Nat.zero_add]
    have hm2 : m < perm_row.length := lt_of_lt_of_le hmlt hplen
    have hperm : perm_row.get? m = some (perm_row.getD m 0) := by
      rw [List.get?_eq_get hm2]
      exact congrArg some ((List.get_eq_getElem perm_row ⟨m, hm2⟩).trans (List.getD_eq_getElem perm_row 0 hm2).symm)
    have htail : ∀ cur' : K,
        phi_step_aux fb all_ints rest (m + 1) main_row perm_row cur' =
          some (cur' + phi_contrib_from fb main_row perm_row (m + 1) rest) :=
      fun cur' => ih (m + 1) cur'
        (fun y hy => hall y (List.mem_cons_of_mem _ hy))
        (by simp only [List.length_cons] at hm; omega)
    cases ty <;>
      simp only [phi_step_aux, hcol, hperm, htail, phi_contrib_from,
        Option.some.injEq] <;>
      ring

/-- C5 (amended).  For a chip all of whose interaction occurrences share one
bus argument, the column lookup of the running-sum phase yields exactly the
flattened position m for every occurrence, and the per-row update is phi of
the current row plus the signed multiplicity-weighted reciprocals read from
the occurrence-indexed columns. -/
theorem c5_single_argument_column {F K : Type} [Field K] (fb : F → K)
    (ints : List (Interaction F × InteractionType)) (a : BusArgument)
    (main_row : List F) (perm_row : List K) (cur : K)
    (hall : ∀ x ∈ ints, x.1.argument_index = a)
    (hlen : ints.length ≤ perm_row.length) :
    (∀ m, m < ints.length → (map_lookup ints a).get? m = some m) ∧
    phi_step fb ints main_row perm_row cur =
      some (cur + phi_contrib_from fb main_row perm_row 0 ints) := by
  have hmap : map_lookup ints a = List.range' 0 ints.length :=
    positions_from_uniform a ints 0 hall
  constructor
  · intro m hm
    rw [hmap, range'_get?_eq ints.length 0 m hm, Nat.zero_add]
  · exact phi_step_aux_uniform fb ints a main_row perm_row hmap hlen ints 0 cur
      hall (by omega)

/-- Witness for C5 at a concrete two-occurrence single-argument chip over the
field of integers mod 101. -/
theorem c5_single_argument_column_witness :
    2 ≤ 3 ∧
    phi_step (fun x => x)
      [(⟨[], fun _ => 1, BusArgument.Local 0⟩, InteractionType.LocalSend),
       (⟨[], fun _ => 2, BusArgument.Local 0⟩, InteractionType.LocalReceive)]
      ([5] : List (ZMod 101)) [4, 7, 0] 0 =
      some (0 + phi_contrib_from (fun x => x) ([5] : List (ZMod 101)) [4, 7, 0] 0
        [(⟨[], fun _ => 1, BusArgument.Local 0⟩, InteractionType.LocalSend),
         (⟨[], fun _ => 2, BusArgument.Local 0⟩, InteractionType.LocalReceive)]) :=
  ⟨by omega,
    (c5_single_argument_column (fun x => x) _ (BusArgument.Local 0) _ _ _
      (by
        intro x hx
        simp only [List.mem_cons, List.not_mem_nil, or_false] at hx
        rcases hx with rfl | rfl <;> rfl)
      (by decide)).2⟩

/-- C5 (counterexample).  The claim as stated covers chips whose occurrences
reference more than one distinct bus argument; for the two-send chip under
Local 0 and Local 1 the running-sum phase does not read column 1 for the
second occurrence: the lookup indexes the one-element position list of
Local 1 at the flattened position 1 and is fatal. -/
theorem c5_multi_argument_aborts :
    phi_step (fun x => x)
      [(⟨[], fun _ => 1, BusArgument.Local 0⟩, InteractionType.LocalSend),
       (⟨[], fun _ => 1, BusArgument.Local 1⟩, InteractionType.LocalSend)]
      ([7] : List (ZMod 101)) [1, 1, 1] 0 = none ∧
    (map_lookup
      [((⟨[], fun _ => 1, BusArgument.Local 0⟩ : Interaction (ZMod 101)),
        InteractionType.LocalSend),
       (⟨[], fun _ => 1, BusArgument.Local 1⟩, InteractionType.LocalSend)]
      (BusArgument.Local 1)).get? 1 = none := by
  refine ⟨by decide, by decide⟩


/-- Helper: the accumulated phi tail has one entry per zipped row. -/
theorem running_phis_aux_length {F K : Type} [Field K] (fb : F → K)
    (ints : List (Interaction F × InteractionType)) :
    ∀ (rows : List (List F × List K)) (cur : K) (l : List K),
      running_phis_aux fb ints rows cur = some l → l.length = rows.length := by
  intro rows
  induction rows with
  | nil =>
    intro cur l h
    simp only [running_phis_aux, Option.some.injEq] at h
    subst h
    rfl
  | cons p rest ih =>
    intro cur l h
    obtain ⟨mr, pr⟩ := p
    cases hstep : phi_step fb ints mr pr cur with
    | none => simp [running_phis_aux, hstep] at h
    | some nxt =>
      cases htail : running_phis_aux fb ints rest nxt with
      | none => simp [running_phis_aux, hstep, htail] at h
      | some tail =>
        simp only [running_phis_aux, hstep, htail, Option.bind_eq_bind,
          Option.some_bind, Option.pure_def, Option.some.injEq] at h
        subst h
        simp [ih nxt tail htail]

/-- Helper: overwriting the last cell of a nonempty list makes that cell the
last element. -/
theorem set_last_getLast {K : Type} (r : List K) (v : K) (h : r ≠ []) :
    (r.set (r.length - 1) v).getLast? = some v := by
  have hpos : 0 < r.length := List.length_pos.mpr h
  have hlt : r.length - 1 < r.length := by omega
  rw [List.getLast?_eq_getElem?, List.length_set]
  exact List.getElem?_set_self hlt

/-- Helper: the write-back loop preserves the row count and puts phi of the
offset position into the last cell of each row. -/
theorem write_phis_from_spec {K : Type} (phis : List K) :
    ∀ (rows : List (List K)) (n : Nat) (out : List (List K)),
      write_phis_from n rows phis = some out →
      out.length = rows.length ∧
      ∀ j row, out[j]? = some row → row.getLast? = phis[n + j]? := by
  intro rows
  induction rows with
  | nil =>
    intro n out h
    simp only [write_phis_from, Option.some.injEq] at h
    subst h
    exact ⟨rfl, fun j row hj => by simp at hj⟩
  | cons r rest ih =>
    intro n out h
    simp only [write_phis_from] at h
    by_cases hr : r.length = 0
    · simp [hr] at h
    · rw [if_neg hr] at h
      cases hv : phis[n]? with
      | none =>
        rw [List.get?_eq_getElem?, hv] at h
        exact Option.noConfusion h
      | some v =>
        rw [List.get?_eq_getElem?, hv] at h
        cases hrest : write_phis_from (n + 1) rest phis with
        | none =>
          rw [hrest] at h
          exact Option.noConfusion h
        | some tail =>
          rw [hrest] at h
          simp only [Option.bind_eq_bind, Option.some_bind, Option.pure_def,
            Option.some.injEq] at h
          subst h
          obtain ⟨ihlen, ihget⟩ := ih (n + 1) tail hrest
          refine ⟨by simp [ihlen], ?_⟩
          intro j row hj
          cases j with
          | zero =>
            simp only [List.getElem?_cons_zero, Option.some.injEq] at hj
            subst hj
            rw [set_last_getLast r v (by intro hnil; exact hr (by simp [hnil])),
              Nat.add_zero, hv]
          | succ j2 =>
            simp only [List.getElem?_cons_succ] at hj
            rw [ihget j2 row hj]
            congr 1
            omega

/-- C10.  In the running-sum phase of generate_permutation_trace, as composed
inside it (the phi accumulation over the zipped main and reciprocal rows
followed by the last-column write-back), the written column at row n is phi
of index n: the accumulation of the contributions of the rows strictly
before n, so row zero holds the additive identity; the phi vector has one
entry more than the zipped height, and the final total (the entry at the
height) is written into no row of the returned trace. -/
theorem c10_running_sum_is_strict_prefix {F K : Type} [Field K] (fb : F → K)
    (ints : List (Interaction F × InteractionType))
    (main_rows : List (List F)) (perm_rows : List (List K))
    (phis : List K) (out : List (List K))
    (h1 : running_phis fb ints main_rows perm_rows = some phis)
    (h2 : write_phis_from 0 perm_rows phis = some out) :
    phis[0]? = some 0 ∧
    phis.length = (main_rows.zip perm_rows).length + 1 ∧
    out.length = perm_rows.length ∧
    ∀ (n : Nat) (row : List K), out[n]? = some row → row.getLast? = phis[n]? := by
  cases htail : running_phis_aux fb ints (main_rows.zip perm_rows) 0 with
  | none => simp [running_phis, htail] at h1
  | some tail =>
    simp only [running_phis, htail, Option.bind_eq_bind, Option.some_bind,
      Option.pure_def, Option.some.injEq] at h1
    subst h1
    have hlen := running_phis_aux_length fb ints _ 0 tail htail
    obtain ⟨holen, hoget⟩ := write_phis_from_spec _ perm_rows 0 out h2
    refine ⟨by simp, by simp [hlen], holen, fun n row hn => ?_⟩
    rw [hoget n row hn]
    congr 1
    omega

/-- Witness for C10 at a concrete single-send chip over the field of
integers mod 101: the written running-sum column is 0 then 10, while the
computed final total 30 is written nowhere. -/
theorem c10_running_sum_is_strict_prefix_witness :
    ((0 : ZMod 101) :: 10 :: 30 :: [])[0]? = some 0 ∧
    ([20, 10] : List (ZMod 101)).getLast? =
      ((0 : ZMod 101) :: 10 :: 30 :: [])[1]? := by
  have h := c10_running_sum_is_strict_prefix (fun x => x)
    [(⟨[fun r => r.getD 0 0], fun _ => 1, BusArgument.Local 0⟩,
      InteractionType.LocalSend)]
    [[7], [11]] [[(10 : ZMod 101), 0], [20, 0]] [0, 10, 30]
    [[10, 0], [20, 10]] (by decide) (by decide)
  exact ⟨h.1, h.2.2.2 1 [20, 10] (by decide)⟩

end Valida
